import Mathlib

/-!
Verification of the dispatch and sequencing engine of this repository
(src/mint.js and src/proxyManager.js), as a shallow embedding in Lean 4.

The embedding translates, from the JavaScript source:
  - the dispatcher's near-even partition of the transaction target across
    active wallets (mint.js, main);
  - the per-route rate limiter of ProxyManager._processQueue;
  - the route health counters (failureCount / isHealthy) and the
    round-robin ProxyManager._selectProxy;
  - the event order of one dispatch cycle
    (_processQueue timeout callback and _sendTransactionThroughProxy);
  - the per-transaction retry state machine of main (error
    classification, nonce re-fetch, MAX_TRANSACTION_RETRIES budget);
  - the promise-in-a-map wallet lock (withWalletLock) as a small-step
    transition system;
  - the direct-provider nonce fetch queue (processDirectNonceQueue) as a
    small-step transition system;
  - the lifecycle of one route's task queue as a small-step transition
    system, to study tasks stranded on a demoted route.

Machine integers of JavaScript are modelled as Nat (timestamps, counters,
nonces) or Int (time arithmetic that subtracts), per the values actually
reachable in the source.
-/

namespace Its4

/-- Constant MAX_TRANSACTION_RETRIES from src/mint.js line 3. -/
def MAX_TRANSACTION_RETRIES : Nat := 5

/-- Constant MAX_PROXY_FAILURES from src/proxyManager.js line 7. -/
def MAX_PROXY_FAILURES : Nat := 3

/-- Constant MIN_REQUEST_INTERVAL_MS from src/proxyManager.js line 6. -/
def MIN_REQUEST_INTERVAL_MS : Int := 100

/-- Constant DIRECT_PROVIDER_CALL_INTERVAL_MS from src/mint.js line 6. -/
def DIRECT_PROVIDER_CALL_INTERVAL_MS : Nat := 100

/-! ## Dispatcher partition (mint.js, main, lines 593-607)

The dispatcher computes transactionsPerWalletBase = floor (T / N) and a
remainder T mod N, then walks the active wallets: each receives the base
count, and while the remainder is positive a wallet receives one extra and
the remainder is decremented. -/

/-- Loop body of the wallet assignment in main: one cons per active
wallet, consuming the remainder first. -/
def assignedCountsGo (transactionsPerWalletBase : Nat) : Nat → Nat → List Nat
  | 0, _ => []
  | n + 1, remainderTransactions =>
    if 0 < remainderTransactions then
      (transactionsPerWalletBase + 1) ::
        assignedCountsGo transactionsPerWalletBase n (remainderTransactions - 1)
    else
      transactionsPerWalletBase :: assignedCountsGo transactionsPerWalletBase n remainderTransactions

/-- Per-wallet transaction counts assigned by main for numActiveWallets
wallets and totalTransactionsToSend target transactions. -/
def assignedCounts (numActiveWallets totalTransactionsToSend : Nat) : List Nat :=
  assignedCountsGo (totalTransactionsToSend / numActiveWallets) numActiveWallets
    (totalTransactionsToSend % numActiveWallets)

theorem assignedCountsGo_sum (b : Nat) : ∀ n rem : Nat,
    (assignedCountsGo b n rem).sum = n * b + min rem n := by
  intro n
  induction n with
  | zero => intro rem; simp [assignedCountsGo]
  | succ n ih =>
    intro rem
    by_cases h : 0 < rem
    · simp only [assignedCountsGo, if_pos h, List.sum_cons, ih, Nat.succ_mul]
      omega
    · simp only [assignedCountsGo, if_neg h, List.sum_cons, ih, Nat.succ_mul]
      omega

/-- Claim C9: for every number of active wallets N ≥ 1 and total target T,
the dispatcher's partition assigns T div N transactions to each wallet plus
one extra to each of the first T mod N wallets, so the assigned counts sum
exactly to T; in particular T = 17 and N = 5 yields [4, 4, 3, 3, 3]. -/
theorem dispatcher_partition_c9 :
    (∀ numActiveWallets totalTransactionsToSend : Nat, 1 ≤ numActiveWallets →
      (assignedCounts numActiveWallets totalTransactionsToSend).sum = totalTransactionsToSend) ∧
    assignedCounts 5 17 = [4, 4, 3, 3, 3] := by
  constructor
  · intro n t hn
    have hmod : t % n < n := Nat.mod_lt t hn
    have hdm : n * (t / n) + t % n = t := Nat.div_add_mod t n
    simp only [assignedCounts, assignedCountsGo_sum]
    rw [Nat.min_eq_left hmod.le, hdm]
  · decide

/-- Witness for C9: the partition for N = 5 wallets and T = 17 target
transactions sums to 17, discharging the N ≥ 1 hypothesis at 5. -/
theorem dispatcher_partition_c9_witness :
    (assignedCounts 5 17).sum = 17 :=
  dispatcher_partition_c9.1 5 17 (by decide)

/-! ## Route rate limiting (proxyManager.js, _processQueue, lines 66-92)

After popping the head task, _processQueue computes
delayRequired = max(0, MIN_REQUEST_INTERVAL_MS - (now - lastRequestTime)),
adds a random jitter in [0, 10), and schedules the dispatch with setTimeout
for delayRequired + jitter later.  When the timeout fires, the callback
sets lastRequestTime to the fire time and performs the send.  A dispatch
timestamp is the fire time; the timer may fire late (lateness ≥ 0), never
early, and the next dequeue happens after the previous dispatch completed,
so its clock reading is at least the previous fire time. -/

/-- Delay computed by _processQueue before dispatching the head task. -/
def delayRequired (now lastRequestTime : Int) : Int :=
  max 0 (MIN_REQUEST_INTERVAL_MS - (now - lastRequestTime))

/-- Fire time of the setTimeout scheduled by _processQueue: the dequeue
clock reading plus the computed delay, the random jitter, and the timer
lateness. -/
def dispatchFireTime (now lastRequestTime jitter lateness : Int) : Int :=
  now + delayRequired now lastRequestTime + jitter + lateness

/-- Sequence of dispatch timestamps of one route.  Each step supplies the
wait between the previous fire time and the next dequeue clock reading,
the jitter, and the timer lateness; the fire time becomes the new
lastRequestTime, exactly as the timeout callback records it. -/
def dispatchTimes (lastRequestTime : Int) : List (Int × Int × Int) → List Int
  | [] => []
  | (wait, jitter, lateness) :: rest =>
    dispatchFireTime (lastRequestTime + wait) lastRequestTime jitter lateness ::
      dispatchTimes (dispatchFireTime (lastRequestTime + wait) lastRequestTime jitter lateness) rest

/-- Predicate: consecutive entries of the list are at least gap apart. -/
def minGapOK (gap : Int) : List Int → Prop
  | [] => True
  | [_] => True
  | a :: b :: rest => a + gap ≤ b ∧ minGapOK gap (b :: rest)

theorem dispatchTimes_lower (steps : List (Int × Int × Int)) : ∀ last : Int,
    (∀ s ∈ steps, 0 ≤ s.1 ∧ 0 ≤ s.2.1 ∧ 0 ≤ s.2.2) →
    ∀ t ∈ dispatchTimes last steps, last + MIN_REQUEST_INTERVAL_MS ≤ t := by
  induction steps with
  | nil => intro last _ t ht; simp [dispatchTimes] at ht
  | cons s rest ih =>
    intro last hs t ht
    obtain ⟨wait, jitter, lateness⟩ := s
    have h0 := hs _ (List.mem_cons_self _ _)
    simp only at h0
    simp only [dispatchTimes, List.mem_cons] at ht
    have hfire : last + MIN_REQUEST_INTERVAL_MS ≤
        dispatchFireTime (last + wait) last jitter lateness := by
      simp only [dispatchFireTime, delayRequired, MIN_REQUEST_INTERVAL_MS]
      omega
    rcases ht with rfl | ht
    · exact hfire
    · have htail := ih (dispatchFireTime (last + wait) last jitter lateness)
        (fun x hx => hs x (List.mem_cons_of_mem _ hx)) t ht
      have hnn : (0 : Int) ≤ MIN_REQUEST_INTERVAL_MS := by decide
      omega

/-- Claim C6: when a route's drain loop pops the head task it waits
max(0, MIN_INTERVAL - (now - lastDispatchTime)) plus jitter before
dispatching, so, for nonnegative waits, jitters and timer latenesses, any
two consecutive dispatch timestamps of the same route are at least
MIN_REQUEST_INTERVAL_MS apart. -/
theorem route_rate_limit_c6 : ∀ (steps : List (Int × Int × Int)) (last : Int),
    (∀ s ∈ steps, 0 ≤ s.1 ∧ 0 ≤ s.2.1 ∧ 0 ≤ s.2.2) →
    minGapOK MIN_REQUEST_INTERVAL_MS (dispatchTimes last steps) := by
  intro steps
  induction steps with
  | nil => intro last _; simp [dispatchTimes, minGapOK]
  | cons s rest ih =>
    intro last hpos
    obtain ⟨wait, jitter, lateness⟩ := s
    have hrest := fun x hx => hpos x (List.mem_cons_of_mem _ hx)
    simp only [dispatchTimes]
    cases hdt : dispatchTimes (dispatchFireTime (last + wait) last jitter lateness) rest with
    | nil => simp [minGapOK]
    | cons t2 ts =>
      simp only [minGapOK]
      constructor
      · exact dispatchTimes_lower rest _ hrest t2 (by rw [hdt]; exact List.mem_cons_self _ _)
      · have hmg := ih (dispatchFireTime (last + wait) last jitter lateness) hrest
        rw [hdt] at hmg
        exact hmg

/-- Witness for C6: a concrete two-dispatch trace from lastRequestTime 0
with wait 5 and jitter 3, then wait 0 and lateness 2, satisfies the
minimum-gap property; the nonnegativity hypothesis is discharged by
decide. -/
theorem route_rate_limit_c6_witness :
    minGapOK MIN_REQUEST_INTERVAL_MS (dispatchTimes 0 [(5, 3, 0), (0, 0, 2)]) :=
  route_rate_limit_c6 [(5, 3, 0), (0, 0, 2)] 0 (by decide)

/-! ## Route health and round-robin selection (proxyManager.js)

A proxy record of ProxyManager carries failureCount, isHealthy and a
request queue.  On a successful send, _sendTransactionThroughProxy resets
failureCount to 0 and marks the proxy healthy (lines 198-199); on an
error, it increments failureCount and marks the proxy unhealthy when the
counter has reached MAX_PROXY_FAILURES (lines 210-214).  _selectProxy
(lines 55-64) scans at most proxies.length entries round-robin from
currentProxyIndex, advancing the cursor at every inspected entry, and
returns the first healthy proxy, or null when the scan finds none. -/

/-- State of one proxy of ProxyManager relevant to health and selection:
queueLength is the length of its requestQueue. -/
structure ProxyState where
  failureCount : Nat
  isHealthy : Bool
  queueLength : Nat
deriving DecidableEq, Repr

/-- Success path of _sendTransactionThroughProxy (lines 198-199). -/
def reportSuccess (p : ProxyState) : ProxyState :=
  { p with failureCount := 0, isHealthy := true }

/-- Failure path of _sendTransactionThroughProxy (lines 210-214). -/
def reportFailure (p : ProxyState) : ProxyState :=
  { p with failureCount := p.failureCount + 1,
           isHealthy := if MAX_PROXY_FAILURES ≤ p.failureCount + 1 then false else p.isHealthy }

/-- Health update of one completed dispatch, by outcome. -/
def reportOutcome (p : ProxyState) (ok : Bool) : ProxyState :=
  if ok then reportSuccess p else reportFailure p

/-- Fold of successive dispatch outcomes over a proxy's health state. -/
def applyReports (p : ProxyState) (reports : List Bool) : ProxyState :=
  reports.foldl reportOutcome p

/-- Proxy state at ProxyManager construction (lines 15-25). -/
def initialProxyState : ProxyState :=
  { failureCount := 0, isHealthy := true, queueLength := 0 }

/-- Loop of _selectProxy: fuel counts the remaining iterations of the
for loop over this.proxies; the cursor advances modulo the pool size at
every inspected entry. -/
def selectProxyAux (proxies : List ProxyState) (currentProxyIndex : Nat) :
    Nat → Option ProxyState × Nat
  | 0 => (none, currentProxyIndex)
  | fuel + 1 =>
    match proxies.get? currentProxyIndex with
    | none => (none, currentProxyIndex)
    | some p =>
      if p.isHealthy then (some p, (currentProxyIndex + 1) % proxies.length)
      else selectProxyAux proxies ((currentProxyIndex + 1) % proxies.length) fuel

/-- ProxyManager._selectProxy: scan once around the pool from the cursor. -/
def selectProxy (proxies : List ProxyState) (currentProxyIndex : Nat) :
    Option ProxyState × Nat :=
  selectProxyAux proxies currentProxyIndex proxies.length

theorem selectProxyAux_healthy (proxies : List ProxyState) :
    ∀ fuel c p c2, selectProxyAux proxies c fuel = (some p, c2) → p.isHealthy = true := by
  intro fuel
  induction fuel with
  | zero =>
    intro c p c2 h
    simp [selectProxyAux] at h
  | succ fuel ih =>
    intro c p c2 h
    simp only [selectProxyAux] at h
    cases hg : proxies.get? c with
    | none => rw [hg] at h; simp at h
    | some q =>
      rw [hg] at h
      dsimp only at h
      cases hq : q.isHealthy with
      | true =>
        rw [if_pos hq] at h
        simp only [Prod.mk.injEq, Option.some.injEq] at h
        obtain ⟨rfl, rfl⟩ := h
        exact hq
      | false =>
        rw [if_neg (by simp [hq])] at h
        exact ih _ _ _ h

theorem cursor_mod_shift (n c k : Nat) : ((c + 1) % n + k) % n = (c + (k + 1)) % n := by
  rw [Nat.mod_add_mod]
  congr 1
  omega

theorem selectProxyAux_some_spec (proxies : List ProxyState) :
    ∀ fuel c p c2, c < proxies.length →
      selectProxyAux proxies c fuel = (some p, c2) →
      ∃ k, k < fuel ∧ proxies.get? ((c + k) % proxies.length) = some p ∧
        p.isHealthy = true ∧
        (∀ j, j < k → ∀ q, proxies.get? ((c + j) % proxies.length) = some q →
          q.isHealthy = false) ∧
        c2 = (c + k + 1) % proxies.length := by
  intro fuel
  induction fuel with
  | zero =>
    intro c p c2 _ h
    simp [selectProxyAux] at h
  | succ fuel ih =>
    intro c p c2 hc h
    have hn : 0 < proxies.length := by omega
    simp only [selectProxyAux] at h
    cases hg : proxies.get? c with
    | none => rw [hg] at h; simp at h
    | some q =>
      rw [hg] at h
      dsimp only at h
      cases hq : q.isHealthy with
      | true =>
        rw [if_pos hq] at h
        simp only [Prod.mk.injEq, Option.some.injEq] at h
        obtain ⟨rfl, rfl⟩ := h
        refine ⟨0, Nat.succ_pos _, ?_, hq, ?_, ?_⟩
        · rw [Nat.add_zero, Nat.mod_eq_of_lt hc]
          exact hg
        · intro j hj q2 _
          exact absurd hj (Nat.not_lt_zero j)
        · rfl
      | false =>
        rw [if_neg (by simp [hq])] at h
        have hc2 : (c + 1) % proxies.length < proxies.length := Nat.mod_lt _ hn
        obtain ⟨k, hk, hget, hhealthy, hprev, hcur⟩ := ih _ p c2 hc2 h
        rw [cursor_mod_shift] at hget
        refine ⟨k + 1, by omega, hget, hhealthy, ?_, ?_⟩
        · intro j hj q2 hq2
          cases j with
          | zero =>
            rw [Nat.add_zero, Nat.mod_eq_of_lt hc, hg] at hq2
            simp only [Option.some.injEq] at hq2
            rw [← hq2]
            exact hq
          | succ j2 =>
            apply hprev j2 (by omega)
            rw [cursor_mod_shift]
            exact hq2
        · rw [hcur, show (c + 1) % proxies.length + k + 1 =
            (c + 1) % proxies.length + (k + 1) by omega, cursor_mod_shift]
          congr 1

theorem selectProxyAux_none_spec (proxies : List ProxyState) :
    ∀ fuel c c2, c < proxies.length →
      selectProxyAux proxies c fuel = (none, c2) →
      (∀ j, j < fuel → ∀ q, proxies.get? ((c + j) % proxies.length) = some q →
        q.isHealthy = false) ∧
      c2 = (c + fuel) % proxies.length := by
  intro fuel
  induction fuel with
  | zero =>
    intro c c2 hc h
    simp only [selectProxyAux, Prod.mk.injEq] at h
    refine ⟨fun j hj => absurd hj (Nat.not_lt_zero j), ?_⟩
    rw [Nat.add_zero, Nat.mod_eq_of_lt hc]
    exact h.2.symm
  | succ fuel ih =>
    intro c c2 hc h
    have hn : 0 < proxies.length := by omega
    simp only [selectProxyAux] at h
    cases hg : proxies.get? c with
    | none =>
      exact absurd (List.get?_eq_get hc) (by rw [hg]; simp)
    | some q =>
      rw [hg] at h
      dsimp only at h
      cases hq : q.isHealthy with
      | true => rw [if_pos hq] at h; simp at h
      | false =>
        rw [if_neg (by simp [hq])] at h
        have hc2 : (c + 1) % proxies.length < proxies.length := Nat.mod_lt _ hn
        obtain ⟨hall, hcur⟩ := ih _ c2 hc2 h
        constructor
        · intro j hj q2 hq2
          cases j with
          | zero =>
            rw [Nat.add_zero, Nat.mod_eq_of_lt hc, hg] at hq2
            simp only [Option.some.injEq] at hq2
            rw [← hq2]
            exact hq
          | succ j2 =>
            apply hall j2 (by omega)
            rw [cursor_mod_shift]
            exact hq2
        · rw [hcur, cursor_mod_shift]

/-- Claim C5: selectProxy returns the first healthy route in round-robin
order starting from the cursor, advancing the cursor past every inspected
route; it scans at most once around the pool and returns none exactly when
every route in the pool is unhealthy (the pool itself is never modified:
unhealthy routes are skipped, not removed). -/
theorem routePool_select_c5 (proxies : List ProxyState) (c : Nat) (hc : c < proxies.length) :
    (∀ p c2, selectProxy proxies c = (some p, c2) →
      ∃ k, k < proxies.length ∧ proxies.get? ((c + k) % proxies.length) = some p ∧
        p.isHealthy = true ∧
        (∀ j, j < k → ∀ q, proxies.get? ((c + j) % proxies.length) = some q →
          q.isHealthy = false) ∧
        c2 = (c + k + 1) % proxies.length) ∧
    (∀ c2, selectProxy proxies c = (none, c2) →
      (∀ q, q ∈ proxies → q.isHealthy = false) ∧ c2 = c) := by
  constructor
  · intro p c2 h
    exact selectProxyAux_some_spec proxies proxies.length c p c2 hc h
  · intro c2 h
    obtain ⟨hall, hcur⟩ := selectProxyAux_none_spec proxies proxies.length c c2 hc h
    constructor
    · intro q hq
      obtain ⟨i, hi⟩ := List.mem_iff_get?.mp hq
      have hilen : i < proxies.length := by
        rcases List.get?_eq_some.mp hi with ⟨hlt, _⟩
        exact hlt
      by_cases hci : c ≤ i
      · refine hall (i - c) (by omega) q ?_
        rw [show c + (i - c) = i by omega, Nat.mod_eq_of_lt hilen]
        exact hi
      · refine hall (i + proxies.length - c) (by omega) q ?_
        rw [show c + (i + proxies.length - c) = i + proxies.length by omega,
          Nat.add_mod_right, Nat.mod_eq_of_lt hilen]
        exact hi
    · rw [hcur, Nat.add_mod_right, Nat.mod_eq_of_lt hc]

/-- Demonstration proxy in the demoted state. -/
def proxyDemoUnhealthy : ProxyState :=
  { failureCount := 3, isHealthy := false, queueLength := 0 }

/-- Demonstration proxy in the healthy state. -/
def proxyDemoHealthy : ProxyState :=
  { failureCount := 0, isHealthy := true, queueLength := 0 }

/-- Witness for C5: on a pool holding one demoted proxy, selection from
cursor 0 reports every pool member unhealthy and leaves the cursor at 0;
both hypotheses are discharged by decide. -/
theorem routePool_select_c5_witness :
    (∀ q, q ∈ [proxyDemoUnhealthy] → q.isHealthy = false) ∧ (0 : Nat) = 0 :=
  (routePool_select_c5 [proxyDemoUnhealthy] 0 (by decide)).2 0 (by decide)

theorem applyReports_health (reports : List Bool) : ∀ p : ProxyState,
    p.isHealthy = decide (p.failureCount < MAX_PROXY_FAILURES) →
    (applyReports p reports).isHealthy =
      decide ((applyReports p reports).failureCount < MAX_PROXY_FAILURES) := by
  induction reports with
  | nil => intro p hp; simpa [applyReports] using hp
  | cons ok rest ih =>
    intro p hp
    simp only [applyReports, List.foldl_cons] at *
    apply ih
    cases ok with
    | true => simp [reportOutcome, reportSuccess, MAX_PROXY_FAILURES]
    | false =>
      simp only [reportOutcome, reportFailure, Bool.false_eq_true, if_false]
      by_cases h3 : MAX_PROXY_FAILURES ≤ p.failureCount + 1
      · simp only [if_pos h3]
        simp only [MAX_PROXY_FAILURES] at h3 ⊢
        simp [show ¬ p.failureCount + 1 < 3 by omega]
      · simp only [if_neg h3]
        simp only [MAX_PROXY_FAILURES] at h3 hp ⊢
        rw [hp]
        simp only [decide_eq_decide]
        omega

/-- Claim C4: each reported failure increments the route's
consecutive-failure counter; starting from the initial state, after any
sequence of dispatch outcomes the route is healthy exactly when its
counter is below the threshold MAX_PROXY_FAILURES = 3 (so it is marked
unhealthy exactly when the counter reaches 3); and selectProxy never
returns an unhealthy route. -/
theorem routeHealth_threshold_c4 :
    (∀ p : ProxyState, (reportFailure p).failureCount = p.failureCount + 1) ∧
    MAX_PROXY_FAILURES = 3 ∧
    (∀ reports : List Bool,
      (applyReports initialProxyState reports).isHealthy =
        decide ((applyReports initialProxyState reports).failureCount < MAX_PROXY_FAILURES)) ∧
    (∀ proxies c p c2, selectProxy proxies c = (some p, c2) → p.isHealthy = true) := by
  refine ⟨fun p => rfl, rfl, ?_, ?_⟩
  · intro reports
    exact applyReports_health reports initialProxyState (by decide)
  · intro proxies c p c2 h
    exact selectProxyAux_healthy proxies proxies.length c p c2 h

/-- Witness for C4: applies the selection conjunct to a singleton healthy
pool, with the selection equation discharged by decide. -/
theorem routeHealth_threshold_c4_witness :
    proxyDemoHealthy.isHealthy = true :=
  routeHealth_threshold_c4.2.2.2 [proxyDemoHealthy] 0 proxyDemoHealthy 0 (by decide)

/-! ## Event order of one dispatch cycle (proxyManager.js, lines 86-92 and
lines 94-226)

When the setTimeout of _processQueue fires, the callback first sets
proxy.lastRequestTime = Date.now() (line 87) and then awaits
_sendTransactionThroughProxy (line 90), which performs the external send;
on success it resets the failure counter, marks the proxy healthy and
calls task.resolve (lines 198-200); on error it increments the counter,
possibly demotes the proxy and calls task.reject (lines 210-215); the
finally block then re-enters _processQueue exactly when the proxy is
healthy and its queue is nonempty (lines 219-224). -/

/-- Observable operations of one dispatch cycle, in the order the code
performs them. -/
inductive ProxyEvent where
  | setLastRequestTime
  | sendStart
  | sendComplete (ok : Bool)
  | reportHealth (ok : Bool)
  | invokeCallback (ok : Bool)
  | drainAgain
deriving DecidableEq, Repr

/-- One dispatch cycle of a route: given the route state observed at the
finally block (queueLength is the queue length there) and the outcome ok
of the external send, returns the updated route state and the list of
operations in source order. -/
def sendCycle (p : ProxyState) (ok : Bool) : ProxyState × List ProxyEvent :=
  (reportOutcome p ok,
    [ProxyEvent.setLastRequestTime, ProxyEvent.sendStart, ProxyEvent.sendComplete ok,
     ProxyEvent.reportHealth ok, ProxyEvent.invokeCallback ok] ++
      (if (reportOutcome p ok).isHealthy = true ∧ 0 < (reportOutcome p ok).queueLength then
        [ProxyEvent.drainAgain]
      else []))

/-- Modelled from the spec's words (claim C7), for comparison against
sendCycle: on completion of the external send the route updates
lastDispatchTime, THEN updates route health, THEN invokes the task's
callback — i.e. the completion strictly precedes the timestamp update,
which precedes the health update, which precedes the callback. -/
def c7SpecClaimOrder (events : List ProxyEvent) (ok : Bool) : Prop :=
  ∃ i j k l : Nat, i < j ∧ j < k ∧ k < l ∧
    events.get? i = some (ProxyEvent.sendComplete ok) ∧
    events.get? j = some ProxyEvent.setLastRequestTime ∧
    events.get? k = some (ProxyEvent.reportHealth ok) ∧
    events.get? l = some (ProxyEvent.invokeCallback ok)

/-- Counterexample for C7: in the code's dispatch cycle the
lastRequestTime update is the FIRST operation — it happens when the timer
fires, before the external send even starts — so the spec's
completion-then-timestamp order fails already on a fresh healthy route
with a successful send. -/
theorem sendCycle_order_c7_counterexample :
    ¬ c7SpecClaimOrder (sendCycle initialProxyState true).2 true := by
  intro hcl
  obtain ⟨i, j, k, l, hij, _, _, hi, hj, _, _⟩ := hcl
  have hev : (sendCycle initialProxyState true).2 =
      [ProxyEvent.setLastRequestTime, ProxyEvent.sendStart, ProxyEvent.sendComplete true,
       ProxyEvent.reportHealth true, ProxyEvent.invokeCallback true] := by decide
  rw [hev] at hi hj
  have hjlen : j < 5 := by
    by_contra hge
    rw [List.get?_eq_none.mpr (by simpa using Nat.le_of_not_lt hge)] at hj
    exact Option.noConfusion hj
  interval_cases j <;> simp_all

/-- Claim C7 amended: lastRequestTime is updated when the timer fires,
immediately BEFORE the external send; after the send completes, route
health is updated, then the task's callback is invoked, and the route
drains again exactly when it is still healthy and its queue is nonempty
at the finally block. -/
theorem sendCycle_order_c7 (p : ProxyState) (ok : Bool) :
    (sendCycle p ok).2.get? 0 = some ProxyEvent.setLastRequestTime ∧
    (sendCycle p ok).2.get? 1 = some ProxyEvent.sendStart ∧
    (sendCycle p ok).2.get? 2 = some (ProxyEvent.sendComplete ok) ∧
    (sendCycle p ok).2.get? 3 = some (ProxyEvent.reportHealth ok) ∧
    (sendCycle p ok).2.get? 4 = some (ProxyEvent.invokeCallback ok) ∧
    (sendCycle p ok).1 = reportOutcome p ok ∧
    (ProxyEvent.drainAgain ∈ (sendCycle p ok).2 ↔
      ((reportOutcome p ok).isHealthy = true ∧ 0 < (reportOutcome p ok).queueLength)) := by
  refine ⟨?_, ?_, ?_, ?_, ?_, rfl, ?_⟩ <;>
    simp only [sendCycle] <;>
    by_cases hd : (reportOutcome p ok).isHealthy = true ∧ 0 < (reportOutcome p ok).queueLength <;>
    simp [hd]

/-! ## Per-transaction retry state machine (mint.js, main, lines 215-284
and lines 627-689)

One logical submission runs a for loop of at most MAX_TRANSACTION_RETRIES
attempts.  Each iteration performs one physical send with the wallet's
currentNonce.  On success, currentNonce is incremented by exactly 1 and
the flow returns fulfilled.  On a nonce-classified error, an inner loop of
up to MAX_TRANSACTION_RETRIES re-fetch attempts asks the direct provider
for a fresh nonce; on the first re-fetch success it overwrites
currentNonce and, when attempts remain, the outer loop continues; on the
last outer attempt the flow fails.  Transient errors (txpool full, gas
limit, insufficient funds, ...) and all other errors wait and continue
when attempts remain, else fail.  The environment (outcome of the k-th
physical send, result of each re-fetch attempt) abstracts the backend. -/

/-- Classification of one physical send outcome by the catch block of
main's retry loop. -/
inductive SendOutcome where
  | success
  | nonceError
  | retryable
  | other
deriving DecidableEq, Repr

/-- Backend environment of one logical submission: the outcome of the
k-th physical send attempt, and the result of re-fetch attempt
nonceAttempt during outer attempt k (none models a re-fetch failure). -/
structure MintEnv where
  sendOutcome : Nat → SendOutcome
  refetchResult : Nat → Nat → Option Nat

/-- Inner nonce re-fetch loop (mint.js lines 242-260): up to
MAX_TRANSACTION_RETRIES re-fetch attempts, stopping at the first success. -/
def refetchLoop (env : MintEnv) (attempt : Nat) : Nat → Nat → Option Nat
  | _, 0 => none
  | nonceAttempt, fuel + 1 =>
    match env.refetchResult attempt nonceAttempt with
    | some n => some n
    | none => refetchLoop env attempt (nonceAttempt + 1) fuel

/-- Result of the inner nonce re-fetch loop at outer attempt. -/
def refetchNonce (env : MintEnv) (attempt : Nat) : Option Nat :=
  refetchLoop env attempt 0 MAX_TRANSACTION_RETRIES

/-- Terminal record of one logical submission: whether it fulfilled, the
nonce passed to the last physical send, the wallet's currentNonce when the
flow ends, and the number of physical send attempts performed. -/
structure TxRun where
  isFulfilled : Bool
  usedNonce : Nat
  finalNonce : Nat
  sendCount : Nat
deriving DecidableEq, Repr

/-- Accounts one more physical send around a recursive continuation. -/
def addSend (r : TxRun) : TxRun :=
  { r with sendCount := r.sendCount + 1 }

/-- Retry loop of main: fuel is the number of remaining loop iterations
(MAX_TRANSACTION_RETRIES - attempt); the fuel-0 case is the fall-out of
the for loop. -/
def processTxLoop (env : MintEnv) : Nat → Nat → Nat → TxRun
  | 0, currentNonce, _ =>
    { isFulfilled := false, usedNonce := currentNonce, finalNonce := currentNonce, sendCount := 0 }
  | fuel + 1, currentNonce, attempt =>
    match env.sendOutcome attempt with
    | SendOutcome.success =>
      { isFulfilled := true, usedNonce := currentNonce, finalNonce := currentNonce + 1,
        sendCount := 1 }
    | SendOutcome.nonceError =>
      match refetchNonce env attempt with
      | some newNonce =>
        if attempt < MAX_TRANSACTION_RETRIES - 1 then
          addSend (processTxLoop env fuel newNonce (attempt + 1))
        else
          { isFulfilled := false, usedNonce := currentNonce, finalNonce := newNonce,
            sendCount := 1 }
      | none =>
        if MAX_TRANSACTION_RETRIES - 1 ≤ attempt then
          { isFulfilled := false, usedNonce := currentNonce, finalNonce := currentNonce,
            sendCount := 1 }
        else
          addSend (processTxLoop env fuel currentNonce (attempt + 1))
    | SendOutcome.retryable =>
      if MAX_TRANSACTION_RETRIES - 1 ≤ attempt then
        { isFulfilled := false, usedNonce := currentNonce, finalNonce := currentNonce,
          sendCount := 1 }
      else
        addSend (processTxLoop env fuel currentNonce (attempt + 1))
    | SendOutcome.other =>
      if MAX_TRANSACTION_RETRIES - 1 ≤ attempt then
        { isFulfilled := false, usedNonce := currentNonce, finalNonce := currentNonce,
          sendCount := 1 }
      else
        addSend (processTxLoop env fuel currentNonce (attempt + 1))

/-- One logical submission of main, starting from the wallet's cached
nonce at attempt 0 with a full attempt budget. -/
def processTx (env : MintEnv) (startNonce : Nat) : TxRun :=
  processTxLoop env MAX_TRANSACTION_RETRIES startNonce 0

/-- Claim C3: MAX_TRANSACTION_RETRIES is 5 and, when every physical send
attempt is classified as a nonce conflict while every re-fetch succeeds,
the logical submission performs exactly 5 physical send attempts and
terminates unfulfilled. -/
theorem allConflict_fiveAttempts_c3 :
    MAX_TRANSACTION_RETRIES = 5 ∧
    ∀ (env : MintEnv) (startNonce : Nat),
      (∀ k, k < MAX_TRANSACTION_RETRIES → env.sendOutcome k = SendOutcome.nonceError) →
      (∀ k, k < MAX_TRANSACTION_RETRIES → (refetchNonce env k).isSome = true) →
      (processTx env startNonce).isFulfilled = false ∧
      (processTx env startNonce).sendCount = 5 := by
  refine ⟨rfl, ?_⟩
  intro env startNonce hs hr
  obtain ⟨m0, hm0⟩ := Option.isSome_iff_exists.mp (hr 0 (by decide))
  obtain ⟨m1, hm1⟩ := Option.isSome_iff_exists.mp (hr 1 (by decide))
  obtain ⟨m2, hm2⟩ := Option.isSome_iff_exists.mp (hr 2 (by decide))
  obtain ⟨m3, hm3⟩ := Option.isSome_iff_exists.mp (hr 3 (by decide))
  obtain ⟨m4, hm4⟩ := Option.isSome_iff_exists.mp (hr 4 (by decide))
  have h0 := hs 0 (by decide)
  have h1 := hs 1 (by decide)
  have h2 := hs 2 (by decide)
  have h3 := hs 3 (by decide)
  have h4 := hs 4 (by decide)
  simp [processTx, processTxLoop, MAX_TRANSACTION_RETRIES, h0, h1, h2, h3, h4,
    hm0, hm1, hm2, hm3, hm4, addSend]

/-- Environment where every send reports a nonce conflict and every
re-fetch succeeds with nonce 0. -/
def envAllConflict : MintEnv :=
  { sendOutcome := fun _ => SendOutcome.nonceError, refetchResult := fun _ _ => some 0 }

/-- Witness for C3: under the all-conflict environment a submission from
nonce 7 performs exactly 5 sends and fails; both hypotheses are
discharged pointwise by rfl. -/
theorem allConflict_fiveAttempts_c3_witness :
    (processTx envAllConflict 7).isFulfilled = false ∧
    (processTx envAllConflict 7).sendCount = 5 :=
  allConflict_fiveAttempts_c3.2 envAllConflict 7 (fun _ _ => rfl) (fun _ _ => rfl)

theorem processTxLoop_cleanRun (env : MintEnv) (k : Nat) (hk : k < MAX_TRANSACTION_RETRIES)
    (hsucc : env.sendOutcome k = SendOutcome.success) :
    ∀ fuel a currentNonce, a + fuel = MAX_TRANSACTION_RETRIES → a ≤ k →
      (∀ j, a ≤ j → j < k →
        env.sendOutcome j = SendOutcome.retryable ∨ env.sendOutcome j = SendOutcome.other) →
      processTxLoop env fuel currentNonce a =
        { isFulfilled := true, usedNonce := currentNonce, finalNonce := currentNonce + 1,
          sendCount := k - a + 1 } := by
  intro fuel
  induction fuel with
  | zero =>
    intro a currentNonce ha hak _
    omega
  | succ fuel ih =>
    intro a currentNonce ha hak hmid
    by_cases hak2 : a = k
    · subst hak2
      simp only [processTxLoop, hsucc]
      simp [Nat.sub_self]
    · have haklt : a < k := lt_of_le_of_ne hak hak2
      have hnotlast : ¬ MAX_TRANSACTION_RETRIES - 1 ≤ a := by
        simp only [MAX_TRANSACTION_RETRIES] at *
        omega
      have hrec := ih (a + 1) currentNonce (by omega) (by omega)
        (fun j hj1 hj2 => hmid j (by omega) hj2)
      rcases hmid a le_rfl haklt with hr | hr
      · simp only [processTxLoop, hr, if_neg hnotlast, hrec, addSend]
        congr 1
        omega
      · simp only [processTxLoop, hr, if_neg hnotlast, hrec, addSend]
        congr 1
        omega

/-- Claim C2 amended: after a submission completes successfully, the
wallet's currentNonce is incremented by exactly 1 over the nonce used by
the successful send; and two consecutive logical submissions of one
wallet, each of which succeeds without any intervening nonce re-fetch
(no attempt before the success is classified as a nonce error), use
sequence numbers that increase by exactly 1. -/
theorem nonce_increment_c2 (env1 env2 : MintEnv) (startNonce k1 k2 : Nat)
    (hk1 : k1 < MAX_TRANSACTION_RETRIES) (hk2 : k2 < MAX_TRANSACTION_RETRIES)
    (hs1 : env1.sendOutcome k1 = SendOutcome.success)
    (hs2 : env2.sendOutcome k2 = SendOutcome.success)
    (hmid1 : ∀ j, j < k1 →
      env1.sendOutcome j = SendOutcome.retryable ∨ env1.sendOutcome j = SendOutcome.other)
    (hmid2 : ∀ j, j < k2 →
      env2.sendOutcome j = SendOutcome.retryable ∨ env2.sendOutcome j = SendOutcome.other) :
    (processTx env1 startNonce).isFulfilled = true ∧
    (processTx env1 startNonce).usedNonce = startNonce ∧
    (processTx env1 startNonce).finalNonce = startNonce + 1 ∧
    (processTx env2 (processTx env1 startNonce).finalNonce).usedNonce = startNonce + 1 ∧
    (processTx env2 (processTx env1 startNonce).finalNonce).finalNonce = startNonce + 2 := by
  have hrun1 := processTxLoop_cleanRun env1 k1 hk1 hs1 MAX_TRANSACTION_RETRIES 0 startNonce
    (by omega) (by omega) (fun j _ hj2 => hmid1 j hj2)
  have hrun2 := processTxLoop_cleanRun env2 k2 hk2 hs2 MAX_TRANSACTION_RETRIES 0 (startNonce + 1)
    (by omega) (by omega) (fun j _ hj2 => hmid2 j hj2)
  simp only [processTx, hrun1, hrun2]
  simp

/-- Environment where every send succeeds immediately. -/
def envAllSuccess : MintEnv :=
  { sendOutcome := fun _ => SendOutcome.success, refetchResult := fun _ _ => none }

/-- Witness for C2 (amended): two consecutive submissions in the
all-success environment from nonce 0 use nonces 0 and 1 and leave the
wallet at nonce 2; all hypotheses are discharged at k1 = k2 = 0. -/
theorem nonce_increment_c2_witness :
    (processTx envAllSuccess 0).isFulfilled = true ∧
    (processTx envAllSuccess 0).usedNonce = 0 ∧
    (processTx envAllSuccess 0).finalNonce = 0 + 1 ∧
    (processTx envAllSuccess (processTx envAllSuccess 0).finalNonce).usedNonce = 0 + 1 ∧
    (processTx envAllSuccess (processTx envAllSuccess 0).finalNonce).finalNonce = 0 + 2 :=
  nonce_increment_c2 envAllSuccess envAllSuccess 0 0 0 (by decide) (by decide) rfl rfl
    (fun j hj => absurd hj (Nat.not_lt_zero j)) (fun j hj => absurd hj (Nat.not_lt_zero j))

/-- Environment whose first send hits a nonce conflict, whose re-fetch
returns the provider value 100, and whose following send succeeds. -/
def envRefetchJump : MintEnv :=
  { sendOutcome := fun attempt => if attempt = 0 then SendOutcome.nonceError else SendOutcome.success,
    refetchResult := fun _ _ => some 100 }

/-- Counterexample for C2 as stated: a first submission from nonce 0
succeeds using nonce 0, leaving the wallet at nonce 1; the next
submission hits a nonce conflict, re-fetches 100 from the provider and
succeeds using nonce 100 — the sequence numbers used by the two
consecutive successful submissions are 0 and then 100, not increasing by
exactly 1. -/
theorem nonce_increment_c2_counterexample :
    (processTx envAllSuccess 0).isFulfilled = true ∧
    (processTx envAllSuccess 0).usedNonce = 0 ∧
    (processTx envAllSuccess 0).finalNonce = 1 ∧
    (processTx envRefetchJump 1).isFulfilled = true ∧
    (processTx envRefetchJump 1).usedNonce = 100 ∧
    ¬ (processTx envRefetchJump 1).usedNonce = (processTx envAllSuccess 0).usedNonce + 1 := by
  decide

/-! ## The wallet lock (mint.js, withWalletLock, lines 526-551)

withWalletLock(walletAddress, op) loops awaiting the promise stored in
the walletLocks map while the map has an entry for the address; once the
while condition observes no entry, it synchronously (no await between the
check and the set) stores a fresh promise — acquiring the lock — runs the
submission attempt, and in the finally block deletes the entry and
resolves the promise.  Every dispatch of a transaction in main's loop
(lines 624-690) runs inside withWalletLock, and the wallet's currentNonce
is mutated only inside the locked callback.

The embedding is a small-step transition system over the cooperative
scheduler: a worker of a wallet is waiting (looping on the await),
holding (the map check found no entry and the worker synchronously set
its promise, so the check-and-set is one atomic step), or finished (the
finally block ran).  The walletLocks component is the key set of the
walletLocks map. -/

/-- Phase of one withWalletLock caller. -/
inductive LockPhase where
  | waiting
  | holding
  | finished
deriving DecidableEq, Repr

/-- State of the wallet-lock protocol: the key set of the walletLocks map
and the list of callers, each a pair of wallet address and phase. -/
structure LockSystem where
  walletLocks : List Nat
  workers : List (Nat × LockPhase)
deriving DecidableEq, Repr

/-- Transitions of withWalletLock: a new caller enters waiting; a waiting
caller whose while-condition observes no map entry for its wallet
synchronously sets the entry and starts holding; a holding caller's
finally block deletes the entry and resolves, finishing. -/
inductive LockStep : LockSystem → LockSystem → Prop where
  | spawn (s : LockSystem) (w : Nat) :
      LockStep s ⟨s.walletLocks, s.workers ++ [(w, LockPhase.waiting)]⟩
  | acquire (s : LockSystem) (w : Nat) (l1 l2 : List (Nat × LockPhase))
      (hw : s.workers = l1 ++ (w, LockPhase.waiting) :: l2)
      (hfree : w ∉ s.walletLocks) :
      LockStep s ⟨w :: s.walletLocks, l1 ++ (w, LockPhase.holding) :: l2⟩
  | release (s : LockSystem) (w : Nat) (l1 l2 : List (Nat × LockPhase))
      (hw : s.workers = l1 ++ (w, LockPhase.holding) :: l2) :
      LockStep s ⟨s.walletLocks.erase w, l1 ++ (w, LockPhase.finished) :: l2⟩

/-- States reachable from the start of main (empty walletLocks map, no
callers). -/
inductive LockReachable : LockSystem → Prop where
  | init : LockReachable ⟨[], []⟩
  | step {s s2 : LockSystem} : LockReachable s → LockStep s s2 → LockReachable s2

/-- Number of callers of the given wallet currently holding its lock,
i.e. submission attempts of that wallet currently in flight. -/
def holdersCount (workers : List (Nat × LockPhase)) (w : Nat) : Nat :=
  (workers.filter (fun x => decide (x.1 = w ∧ x.2 = LockPhase.holding))).length

/-- holdersCount lifted to the system state. -/
def holdersOf (s : LockSystem) (w : Nat) : Nat :=
  holdersCount s.workers w

theorem holdersCount_append (lA lB : List (Nat × LockPhase)) (w : Nat) :
    holdersCount (lA ++ lB) w = holdersCount lA w + holdersCount lB w := by
  simp [holdersCount, List.filter_append]

theorem holdersCount_cons (x : Nat × LockPhase) (l : List (Nat × LockPhase)) (w : Nat) :
    holdersCount (x :: l) w =
      (if x.1 = w ∧ x.2 = LockPhase.holding then 1 else 0) + holdersCount l w := by
  by_cases h : x.1 = w ∧ x.2 = LockPhase.holding
  · simp [holdersCount, List.filter_cons, h]
    omega
  · simp [holdersCount, List.filter_cons, h]

/-- Inductive invariant of the lock protocol: the map key set has no
duplicates, each wallet has at most one holder, and a wallet with no map
entry has no holder at all. -/
def lockInv (s : LockSystem) : Prop :=
  s.walletLocks.Nodup ∧
  ∀ w, holdersOf s w ≤ 1 ∧ (w ∉ s.walletLocks → holdersOf s w = 0)

theorem lockInv_step (s s2 : LockSystem) (hstep : LockStep s s2) (ih : lockInv s) :
    lockInv s2 := by
  cases hstep with
  | spawn w =>
      obtain ⟨hnd, hinv⟩ := ih
      refine ⟨hnd, fun w2 => ?_⟩
      obtain ⟨hle, hzero⟩ := hinv w2
      have hnew : holdersOf ⟨s.walletLocks, s.workers ++ [(w, LockPhase.waiting)]⟩ w2 =
          holdersOf s w2 := by
        simp [holdersOf, holdersCount_append, holdersCount_cons, holdersCount]
      rw [hnew]
      exact ⟨hle, hzero⟩
  | acquire w l1 l2 hw hfree =>
      obtain ⟨hnd, hinv⟩ := ih
      refine ⟨List.nodup_cons.mpr ⟨hfree, hnd⟩, fun w2 => ?_⟩
      obtain ⟨hle, hzero⟩ := hinv w2
      rw [holdersOf, hw, holdersCount_append, holdersCount_cons] at hle hzero
      by_cases hw2 : w = w2
      · subst hw2
        have h0 : holdersCount l1 w + holdersCount l2 w = 0 := by
          have := hzero hfree
          simp at this
          omega
        constructor
        · rw [holdersOf, holdersCount_append, holdersCount_cons]
          simp
          omega
        · intro hnotin
          exact absurd (List.mem_cons_self w s.walletLocks) hnotin
      · have hxne : ¬ ((w, LockPhase.holding).1 = w2 ∧ (w, LockPhase.holding).2 = LockPhase.holding) := by
          simp
          intro hcontra
          exact absurd hcontra hw2
        have hxne2 : ¬ ((w, LockPhase.waiting).1 = w2 ∧ (w, LockPhase.waiting).2 = LockPhase.holding) := by
          simp
        rw [if_neg hxne2] at hle hzero
        constructor
        · rw [holdersOf, holdersCount_append, holdersCount_cons, if_neg hxne]
          omega
        · intro hnotin
          have hnotin2 : w2 ∉ s.walletLocks := fun hmem =>
            hnotin (List.mem_cons_of_mem w hmem)
          have := hzero hnotin2
          rw [holdersOf, holdersCount_append, holdersCount_cons, if_neg hxne]
          omega
  | release w l1 l2 hw =>
      obtain ⟨hnd, hinv⟩ := ih
      refine ⟨hnd.erase w, fun w2 => ?_⟩
      obtain ⟨hle, hzero⟩ := hinv w2
      rw [holdersOf, hw, holdersCount_append, holdersCount_cons] at hle hzero
      have hxfin : ¬ ((w, LockPhase.finished).1 = w2 ∧ (w, LockPhase.finished).2 = LockPhase.holding) := by
        simp
      by_cases hw2 : w = w2
      · subst hw2
        have hwin : (if (w, LockPhase.holding).1 = w ∧ (w, LockPhase.holding).2 = LockPhase.holding
            then 1 else 0) = 1 := by simp
        rw [hwin] at hle
        constructor
        · rw [holdersOf, holdersCount_append, holdersCount_cons, if_neg hxfin]
          omega
        · intro _
          rw [holdersOf, holdersCount_append, holdersCount_cons, if_neg hxfin]
          omega
      · have hxne : ¬ ((w, LockPhase.holding).1 = w2 ∧ (w, LockPhase.holding).2 = LockPhase.holding) := by
          simp
          intro hcontra
          exact absurd hcontra hw2
        rw [if_neg hxne] at hle hzero
        constructor
        · rw [holdersOf, holdersCount_append, holdersCount_cons, if_neg hxfin]
          omega
        · intro hnotin
          have hnotin2 : w2 ∉ s.walletLocks := by
            intro hmem
            exact hnotin ((List.mem_erase_of_ne (fun h2 => hw2 h2.symm)).mpr hmem)
          have := hzero hnotin2
          rw [holdersOf, holdersCount_append, holdersCount_cons, if_neg hxfin]
          omega

theorem lockInv_of_reachable : ∀ s, LockReachable s → lockInv s := by
  intro s h
  induction h with
  | init =>
    refine ⟨List.nodup_nil, fun w => ⟨?_, fun _ => ?_⟩⟩ <;>
      simp [holdersOf, holdersCount]
  | step hr hstep ih => exact lockInv_step _ _ hstep ih

/-- Claim C1: in every reachable state of the wallet-lock protocol, each
wallet has at most one submission attempt holding its lock (so no two
attempts for one wallet are ever concurrently in flight), and a wallet
whose walletLocks entry is absent has no holder — the currentNonce
mutations, which the source performs only inside the locked callback, are
therefore always performed by the unique lock holder. -/
theorem walletLock_mutualExclusion_c1 (s : LockSystem) (h : LockReachable s) :
    ∀ w, holdersOf s w ≤ 1 ∧ (w ∉ s.walletLocks → holdersOf s w = 0) :=
  (lockInv_of_reachable s h).2

/-- Witness for C1: two callers of wallet 7 enter, one acquires; in the
resulting reachable state wallet 7 has at most one holder. -/
theorem walletLock_mutualExclusion_c1_witness :
    holdersOf ⟨[7], [(7, LockPhase.holding), (7, LockPhase.waiting)]⟩ 7 ≤ 1 ∧
    (7 ∉ ([7] : List Nat) →
      holdersOf ⟨[7], [(7, LockPhase.holding), (7, LockPhase.waiting)]⟩ 7 = 0) := by
  refine walletLock_mutualExclusion_c1 _ ?_ 7
  have h0 := LockReachable.init
  have h1 := LockReachable.step h0 (LockStep.spawn ⟨[], []⟩ 7)
  have h2 := LockReachable.step h1 (LockStep.spawn ⟨[], [(7, LockPhase.waiting)]⟩ 7)
  exact LockReachable.step h2
    (LockStep.acquire ⟨[], [(7, LockPhase.waiting), (7, LockPhase.waiting)]⟩ 7 []
      [(7, LockPhase.waiting)] rfl (by simp))

/-! ## The direct-provider nonce fetch queue (mint.js, lines 69-113)

fetchNonceViaQueue pushes an entry onto directProviderNonceQueue and
kicks processDirectNonceQueue, which returns at once when
isProcessingDirectNonceQueue is already true (the check and the set are
synchronous, with no await between them), otherwise sets the flag, shifts
the head entry (FIFO), delays until at least
DIRECT_PROVIDER_CALL_INTERVAL_MS has passed since
lastDirectNonceCallTime, performs the single authoritative
getTransactionCount call, records the completion time in
lastDirectNonceCallTime, and in the finally block clears the flag and
recurses while entries remain.

The embedding is a small-step transition system.  A startCall step
atomically takes the flag from false to true, shifts the head, and fixes
the authoritative call's start time — legal because no await separates
the flag check, the flag set and the shift in the source, and the delay
that follows runs under the flag.  A finishCall step records the
completion time (at or after the start) and clears the flag.  Ghost
components enqueuedIds and servedCalls record the enqueue order and the
(id, startTime) history of authoritative calls. -/

/-- Start time of the authoritative call: the dequeue clock reading now,
pushed forward when less than DIRECT_PROVIDER_CALL_INTERVAL_MS has
passed since the last call completed (mint.js lines 82-86). -/
def callStartTime (now lastTime : Nat) : Nat :=
  if now - lastTime < DIRECT_PROVIDER_CALL_INTERVAL_MS then
    now + (DIRECT_PROVIDER_CALL_INTERVAL_MS - (now - lastTime))
  else now

/-- State of the nonce fetch queue: the pending FIFO queue of request
ids, the in-flight authoritative call (id and start time), the
isProcessingDirectNonceQueue flag, the last completion timestamp, and
the ghost histories. -/
structure NonceQueueState where
  directProviderNonceQueue : List Nat
  inFlightCall : List (Nat × Nat)
  isProcessingFlag : Bool
  lastDirectNonceCallTime : Nat
  enqueuedIds : List Nat
  servedCalls : List (Nat × Nat)
deriving DecidableEq, Repr

/-- Transitions of the nonce fetch queue. -/
inductive NonceQueueStep : NonceQueueState → NonceQueueState → Prop where
  | enqueue (s : NonceQueueState) (id : Nat) :
      NonceQueueStep s
        { s with directProviderNonceQueue := s.directProviderNonceQueue ++ [id],
                 enqueuedIds := s.enqueuedIds ++ [id] }
  | startCall (s : NonceQueueState) (id : Nat) (rest : List Nat) (now : Nat)
      (hq : s.directProviderNonceQueue = id :: rest)
      (hflag : s.isProcessingFlag = false)
      (hnow : s.lastDirectNonceCallTime ≤ now) :
      NonceQueueStep s
        { directProviderNonceQueue := rest,
          inFlightCall := [(id, callStartTime now s.lastDirectNonceCallTime)],
          isProcessingFlag := true,
          lastDirectNonceCallTime := s.lastDirectNonceCallTime,
          enqueuedIds := s.enqueuedIds,
          servedCalls := s.servedCalls ++ [(id, callStartTime now s.lastDirectNonceCallTime)] }
  | finishCall (s : NonceQueueState) (id startT endT : Nat)
      (hf : s.inFlightCall = [(id, startT)])
      (hend : startT ≤ endT) :
      NonceQueueStep s
        { s with inFlightCall := [], isProcessingFlag := false,
                 lastDirectNonceCallTime := endT }

/-- States reachable from module initialization of mint.js (empty queue,
flag false, lastDirectNonceCallTime 0). -/
inductive NonceQueueReachable : NonceQueueState → Prop where
  | init : NonceQueueReachable ⟨[], [], false, 0, [], []⟩
  | step {s s2 : NonceQueueState} :
      NonceQueueReachable s → NonceQueueStep s s2 → NonceQueueReachable s2

/-- Predicate: consecutive entries are at least
DIRECT_PROVIDER_CALL_INTERVAL_MS apart. -/
def spacingOK : List Nat → Prop
  | [] => True
  | [_] => True
  | a :: b :: rest => a + DIRECT_PROVIDER_CALL_INTERVAL_MS ≤ b ∧ spacingOK (b :: rest)

/-- Last element of a start-time history, 0 for the empty history. -/
def lastStartOf : List Nat → Nat
  | [] => 0
  | [a] => a
  | _ :: b :: rest => lastStartOf (b :: rest)

theorem lastStartOf_append_single (l : List Nat) (x : Nat) :
    lastStartOf (l ++ [x]) = x := by
  induction l with
  | nil => rfl
  | cons a t ih =>
    cases t with
    | nil => rfl
    | cons b t2 => simpa [lastStartOf] using ih

theorem spacingOK_append (l : List Nat) (x : Nat)
    (h : spacingOK l) (hx : lastStartOf l + DIRECT_PROVIDER_CALL_INTERVAL_MS ≤ x) :
    spacingOK (l ++ [x]) := by
  induction l with
  | nil => simp [spacingOK]
  | cons a t ih =>
    cases t with
    | nil => exact ⟨hx, trivial⟩
    | cons b t2 =>
      obtain ⟨h1, h2⟩ := h
      exact ⟨h1, ih h2 hx⟩

theorem callStartTime_spaced (now lastTime : Nat) (hnow : lastTime ≤ now) :
    lastTime + DIRECT_PROVIDER_CALL_INTERVAL_MS ≤ callStartTime now lastTime := by
  simp only [callStartTime, DIRECT_PROVIDER_CALL_INTERVAL_MS]
  split <;> omega

/-- Inductive invariant of the nonce fetch queue: the flag covers the
in-flight call, at most one call is in flight, enqueue order equals
served order followed by the pending queue, consecutive authoritative
call starts are spaced, the last completion time is at or after the last
start while idle, and the in-flight call is the most recent start. -/
def nonceQueueInv (s : NonceQueueState) : Prop :=
  (s.isProcessingFlag = false → s.inFlightCall = []) ∧
  s.inFlightCall.length ≤ 1 ∧
  s.enqueuedIds = s.servedCalls.map Prod.fst ++ s.directProviderNonceQueue ∧
  spacingOK (s.servedCalls.map Prod.snd) ∧
  (s.inFlightCall = [] →
    lastStartOf (s.servedCalls.map Prod.snd) ≤ s.lastDirectNonceCallTime) ∧
  (∀ id startT, s.inFlightCall = [(id, startT)] →
    lastStartOf (s.servedCalls.map Prod.snd) = startT)

theorem nonceQueueInv_step (s s2 : NonceQueueState) (hstep : NonceQueueStep s s2)
    (ih : nonceQueueInv s) : nonceQueueInv s2 := by
  obtain ⟨hcov, hlen, hfifo, hspace, hidle, hflight⟩ := ih
  cases hstep with
  | enqueue id =>
    refine ⟨hcov, hlen, ?_, hspace, hidle, hflight⟩
    simp only [hfifo]
    simp
  | startCall id rest now hq hflag hnow =>
    have hempty : s.inFlightCall = [] := hcov hflag
    have hlast : lastStartOf (s.servedCalls.map Prod.snd) ≤ s.lastDirectNonceCallTime :=
      hidle hempty
    refine ⟨?_, ?_, ?_, ?_, ?_, ?_⟩
    · intro hcontra
      exact Bool.noConfusion hcontra
    · simp
    · simp only [hfifo, hq]
      simp
    · simp only [List.map_append, List.map_cons, List.map_nil]
      exact spacingOK_append _ _ hspace
        (le_trans (by omega) (callStartTime_spaced now s.lastDirectNonceCallTime hnow))
    · intro hcontra
      exact absurd hcontra (by simp)
    · intro id2 startT2 hpair
      simp only [List.cons.injEq, Prod.mk.injEq] at hpair
      obtain ⟨⟨_, hst⟩, _⟩ := hpair
      rw [← hst]
      simp only [List.map_append, List.map_cons, List.map_nil]
      exact lastStartOf_append_single _ _
  | finishCall id startT endT hf hend =>
    refine ⟨fun _ => rfl, by simp, hfifo, hspace, ?_, ?_⟩
    · intro _
      have := hflight id startT hf
      simp only
      omega
    · intro id2 startT2 hpair
      exact absurd hpair (by simp)

theorem nonceQueueInv_of_reachable : ∀ s, NonceQueueReachable s → nonceQueueInv s := by
  intro s h
  induction h with
  | init =>
    refine ⟨fun _ => rfl, by simp, rfl, trivial, fun _ => ?_, fun id startT hpair => ?_⟩
    · simp [lastStartOf]
    · exact absurd hpair (by simp)
  | step hr hstep ih => exact nonceQueueInv_step _ _ hstep ih

/-- Claim C8: in every reachable state of the nonce fetch queue, at most
one authoritative re-fetch call is in flight system-wide, the order in
which requests were granted an authoritative call (followed by the still
pending requests) is exactly their enqueue order (FIFO), and consecutive
authoritative call start times are at least
DIRECT_PROVIDER_CALL_INTERVAL_MS apart, regardless of which wallet
requested them. -/
theorem nonceQueue_singleFlight_c8 (s : NonceQueueState) (h : NonceQueueReachable s) :
    s.inFlightCall.length ≤ 1 ∧
    s.enqueuedIds = s.servedCalls.map Prod.fst ++ s.directProviderNonceQueue ∧
    spacingOK (s.servedCalls.map Prod.snd) := by
  obtain ⟨_, hlen, hfifo, hspace, _, _⟩ := nonceQueueInv_of_reachable s h
  exact ⟨hlen, hfifo, hspace⟩

/-- Witness for C8: two requests enqueue, the first starts its
authoritative call (pushed to time 100 by the spacing rule); in the
resulting reachable state the single-flight bound, FIFO equation and
spacing hold. -/
theorem nonceQueue_singleFlight_c8_witness :
    ([(1, 100)] : List (Nat × Nat)).length ≤ 1 ∧
    ([1, 2] : List Nat) = [(1, 100)].map Prod.fst ++ [2] ∧
    spacingOK ([(1, 100)].map Prod.snd) := by
  refine nonceQueue_singleFlight_c8 ⟨[2], [(1, 100)], true, 0, [1, 2], [(1, 100)]⟩ ?_
  have h0 := NonceQueueReachable.init
  have h1 := NonceQueueReachable.step h0 (NonceQueueStep.enqueue ⟨[], [], false, 0, [], []⟩ 1)
  have h2 := NonceQueueReachable.step h1
    (NonceQueueStep.enqueue ⟨[1], [], false, 0, [1], []⟩ 2)
  exact NonceQueueReachable.step h2
    (NonceQueueStep.startCall ⟨[1, 2], [], false, 0, [1, 2], []⟩ 1 [2] 0 rfl rfl (by decide))

/-! ## Lifecycle of one route's task queue (proxyManager.js)

Tasks reach a route only through submitTransaction (lines 228-247), which
selects a healthy proxy and synchronously pushes the task — so tasks are
only ever enqueued on a route that is healthy at that instant.  A queued
task is only ever dequeued by _processQueue (lines 66-75), which requires
the route idle AND healthy.  The dequeued task's send ends in
_sendTransactionThroughProxy either resolving the task (success path,
lines 198-200) or rejecting it (failure path, lines 210-215, where the
route is demoted once failureCount reaches MAX_PROXY_FAILURES); the
finally block (lines 216-225) clears isProcessing and re-drains only a
healthy route.  No other code path touches a route's queue or settles a
queued task.

The embedding is a small-step transition system over one route; task ids
entering the queue are fresh (each Task object is distinct).  resolvedTasks
and rejectedTasks record the settled promises. -/

/-- State of one route of ProxyManager: pending task ids, the in-flight
dequeued task, the isProcessing flag, the failure counter, the health
flag, and the settled task histories. -/
structure RouteState where
  requestQueue : List Nat
  inFlightTask : Option Nat
  isProcessing : Bool
  failureCount : Nat
  isHealthy : Bool
  resolvedTasks : List Nat
  rejectedTasks : List Nat
deriving DecidableEq, Repr

/-- Transitions of one route's task lifecycle. -/
inductive RouteStep : RouteState → RouteState → Prop where
  | enqueueTask (s : RouteState) (id : Nat)
      (hhealthy : s.isHealthy = true)
      (hfresh : id ∉ s.requestQueue ∧ s.inFlightTask ≠ some id ∧
        id ∉ s.resolvedTasks ∧ id ∉ s.rejectedTasks) :
      RouteStep s { s with requestQueue := s.requestQueue ++ [id] }
  | startTask (s : RouteState) (id : Nat) (rest : List Nat)
      (hq : s.requestQueue = id :: rest)
      (hidle : s.isProcessing = false)
      (hhealthy : s.isHealthy = true) :
      RouteStep s { s with requestQueue := rest, isProcessing := true,
                           inFlightTask := some id }
  | completeSuccess (s : RouteState) (id : Nat)
      (hf : s.inFlightTask = some id) :
      RouteStep s { s with inFlightTask := none, isProcessing := false,
                           failureCount := 0, isHealthy := true,
                           resolvedTasks := s.resolvedTasks ++ [id] }
  | completeFailure (s : RouteState) (id : Nat)
      (hf : s.inFlightTask = some id) :
      RouteStep s { s with inFlightTask := none, isProcessing := false,
                           failureCount := s.failureCount + 1,
                           isHealthy := if MAX_PROXY_FAILURES ≤ s.failureCount + 1 then false
                             else s.isHealthy,
                           rejectedTasks := s.rejectedTasks ++ [id] }

/-- Route states reachable from ProxyManager construction. -/
inductive RouteReachable : RouteState → Prop where
  | init : RouteReachable ⟨[], none, false, 0, true, [], []⟩
  | step {s s2 : RouteState} : RouteReachable s → RouteStep s s2 → RouteReachable s2

/-- Zero or more route transitions. -/
inductive RouteSteps : RouteState → RouteState → Prop where
  | refl (s : RouteState) : RouteSteps s s
  | tail {s s2 s3 : RouteState} : RouteSteps s s2 → RouteStep s2 s3 → RouteSteps s s3

/-- Inductive invariant of the route lifecycle: an unhealthy route has no
in-flight task, queued ids are distinct, never equal to the in-flight id,
and never already settled. -/
def routeInv (s : RouteState) : Prop :=
  (s.isHealthy = false → s.inFlightTask = none) ∧
  s.requestQueue.Nodup ∧
  (∀ id, id ∈ s.requestQueue → s.inFlightTask ≠ some id) ∧
  (∀ id, id ∈ s.requestQueue → id ∉ s.resolvedTasks ∧ id ∉ s.rejectedTasks)

theorem routeInv_step (s s2 : RouteState) (hstep : RouteStep s s2) (ih : routeInv s) :
    routeInv s2 := by
  obtain ⟨hun, hnd, hinf, hset⟩ := ih
  cases hstep with
  | enqueueTask id hhealthy hfresh =>
    obtain ⟨hfq, hff, hfr, hfj⟩ := hfresh
    refine ⟨fun hcontra => hun hcontra, ?_, ?_, ?_⟩
    · simp [List.nodup_append, hnd, hfq]
    · intro id2 hid2
      rcases List.mem_append.mp hid2 with hmem | hmem
      · exact hinf id2 hmem
      · simp only [List.mem_singleton] at hmem
        subst hmem
        exact hff
    · intro id2 hid2
      rcases List.mem_append.mp hid2 with hmem | hmem
      · exact hset id2 hmem
      · simp only [List.mem_singleton] at hmem
        subst hmem
        exact ⟨hfr, hfj⟩
  | startTask id rest hq hidle hhealthy =>
    have hndrest : rest.Nodup := by
      rw [hq] at hnd
      exact (List.nodup_cons.mp hnd).2
    have hheadnot : id ∉ rest := by
      rw [hq] at hnd
      exact (List.nodup_cons.mp hnd).1
    refine ⟨fun hcontra => ?_, hndrest, ?_, ?_⟩
    · simp only at hcontra
      rw [hhealthy] at hcontra
      exact Bool.noConfusion hcontra
    · intro id2 hid2
      simp only [Option.some.injEq, ne_eq]
      intro hcontra
      subst hcontra
      exact hheadnot hid2
    · intro id2 hid2
      exact hset id2 (by rw [hq]; exact List.mem_cons_of_mem id hid2)
  | completeSuccess id hf =>
    refine ⟨fun hcontra => Bool.noConfusion hcontra, hnd, fun id2 _ => by simp, ?_⟩
    intro id2 hid2
    obtain ⟨hres, hrej⟩ := hset id2 hid2
    refine ⟨?_, hrej⟩
    simp only [List.mem_append, List.mem_singleton]
    rintro (hmem | rfl)
    · exact hres hmem
    · exact hinf id2 hid2 hf
  | completeFailure id hf =>
    refine ⟨fun _ => rfl, hnd, fun id2 _ => by simp, ?_⟩
    intro id2 hid2
    obtain ⟨hres, hrej⟩ := hset id2 hid2
    refine ⟨hres, ?_⟩
    simp only [List.mem_append, List.mem_singleton]
    rintro (hmem | rfl)
    · exact hrej hmem
    · exact hinf id2 hid2 hf

theorem routeInv_of_reachable : ∀ s, RouteReachable s → routeInv s := by
  intro s h
  induction h with
  | init =>
    exact ⟨fun hcontra => rfl, List.nodup_nil,
      fun id hid => absurd hid (List.not_mem_nil id),
      fun id hid => absurd hid (List.not_mem_nil id)⟩
  | step hr hstep ih => exact routeInv_step _ _ hstep ih

theorem routeStep_none_of_unhealthy (s : RouteState) (hinv : routeInv s)
    (hun : s.isHealthy = false) : ∀ s2, ¬ RouteStep s s2 := by
  intro s2 hstep
  cases hstep with
  | enqueueTask id hhealthy hfresh =>
    rw [hun] at hhealthy
    exact Bool.noConfusion hhealthy
  | startTask id rest hq hidle hhealthy =>
    rw [hun] at hhealthy
    exact Bool.noConfusion hhealthy
  | completeSuccess id hf =>
    rw [hinv.1 hun] at hf
    exact Option.noConfusion hf
  | completeFailure id hf =>
    rw [hinv.1 hun] at hf
    exact Option.noConfusion hf

/-- Claim C10: once a reachable route state is unhealthy, no transition of
the route lifecycle is enabled any more — every later state equals the
current one, so tasks still in the queue are never dequeued, never
dispatched and never settled — and no task currently queued is among the
resolved or rejected (settled) tasks, so its submitTransaction promise
never settles. -/
theorem strandedTasks_neverSettle_c10 (s : RouteState) (h : RouteReachable s)
    (hun : s.isHealthy = false) :
    (∀ s2, RouteSteps s s2 → s2 = s) ∧
    (∀ id, id ∈ s.requestQueue → id ∉ s.resolvedTasks ∧ id ∉ s.rejectedTasks) := by
  have hinv := routeInv_of_reachable s h
  constructor
  · intro s2 hsteps
    induction hsteps with
    | refl => rfl
    | tail hpre hlast ih =>
      rw [ih] at hlast
      exact absurd hlast (routeStep_none_of_unhealthy s hinv hun _)
  · exact hinv.2.2.2

/-- Witness for C10: four tasks enqueue on a healthy route; three are
dispatched and fail, demoting the route with task 4 still queued; the
stranded task 4 is settled by no operation. -/
theorem strandedTasks_neverSettle_c10_witness :
    4 ∉ (⟨[4], none, false, 3, false, [], [1, 2, 3]⟩ : RouteState).resolvedTasks ∧
    4 ∉ (⟨[4], none, false, 3, false, [], [1, 2, 3]⟩ : RouteState).rejectedTasks := by
  refine (strandedTasks_neverSettle_c10 ⟨[4], none, false, 3, false, [], [1, 2, 3]⟩ ?_ rfl).2
    4 (by decide)
  have h0 := RouteReachable.init
  have h1 := RouteReachable.step h0
    (RouteStep.enqueueTask ⟨[], none, false, 0, true, [], []⟩ 1 rfl (by decide))
  have h2 := RouteReachable.step h1
    (RouteStep.enqueueTask ⟨[1], none, false, 0, true, [], []⟩ 2 rfl (by decide))
  have h3 := RouteReachable.step h2
    (RouteStep.enqueueTask ⟨[1, 2], none, false, 0, true, [], []⟩ 3 rfl (by decide))
  have h4 := RouteReachable.step h3
    (RouteStep.enqueueTask ⟨[1, 2, 3], none, false, 0, true, [], []⟩ 4 rfl (by decide))
  have h5 := RouteReachable.step h4
    (RouteStep.startTask ⟨[1, 2, 3, 4], none, false, 0, true, [], []⟩ 1 [2, 3, 4] rfl rfl rfl)
  have h6 := RouteReachable.step h5
    (RouteStep.completeFailure ⟨[2, 3, 4], some 1, true, 0, true, [], []⟩ 1 rfl)
  have h7 := RouteReachable.step h6
    (RouteStep.startTask ⟨[2, 3, 4], none, false, 1, true, [], [1]⟩ 2 [3, 4] rfl rfl rfl)
  have h8 := RouteReachable.step h7
    (RouteStep.completeFailure ⟨[3, 4], some 2, true, 1, true, [], [1]⟩ 2 rfl)
  have h9 := RouteReachable.step h8
    (RouteStep.startTask ⟨[3, 4], none, false, 2, true, [], [1, 2]⟩ 3 [4] rfl rfl rfl)
  exact RouteReachable.step h9
    (RouteStep.completeFailure ⟨[4], some 3, true, 2, true, [], [1, 2]⟩ 3 rfl)

end Its4
